import Mathlib

/-!
# Verification of the bounded TTL cache (`src/cache.ts`)

A shallow embedding of the TypeScript module `src/cache.ts`.  The cache
owns an insertion-ordered mapping from string keys to entries; JavaScript
`Map` semantics are modelled by an association list kept in insertion
order with unique keys:

* `Map.get` returns the first (and, in a real `Map`, only) binding;
* `Map.set` on an existing key updates the value in place, keeping the
  key's position in iteration order; on a missing key it appends;
* `Map.delete` removes the binding and reports whether one existed;
* iteration (`entries()`, `keys()`) visits bindings in insertion order.

Time is a `Nat` timestamp (milliseconds, as produced by `Date.now()`);
every public operation receives the current instant `now` explicitly.
`maxSize` is an `Int`, since the source never rules out non-positive
sizes.  Operations that mutate the closure-captured `store` are modelled
by explicit state passing: each returns its result paired with the
updated `CacheState`.
-/

namespace TTLCache

/-- `CacheEntry<T>` from `src/cache.ts`: a stored value together with the
absolute instant after which it is invalid. -/
structure CacheEntry (T : Type) where
  value : T
  expiresAt : Nat
  deriving Repr, DecidableEq

/-- `CacheOptions` from `src/cache.ts`. -/
structure CacheOptions where
  ttl : Nat
  maxSize : Int
  deriving Repr, DecidableEq

/-- The closure-captured `store: Map<string, CacheEntry<T>>`, as an
insertion-ordered association list. -/
abbrev Store (T : Type) := List (String × CacheEntry T)

/-- `store.get(key)`: first binding for `key`, if any. -/
def mapGet {T : Type} : Store T → String → Option (CacheEntry T)
  | [], _ => none
  | (k', e) :: rest, k => if k' = k then some e else mapGet rest k

/-- `store.has(key)` / "`key` is present in the store". -/
def mapHas {T : Type} (s : Store T) (k : String) : Bool :=
  (mapGet s k).isSome

/-- `store.set(key, entry)`: JavaScript `Map.set` updates an existing
key in place (keeping its insertion-order position) and appends a new
key at the end. -/
def mapSet {T : Type} : Store T → String → CacheEntry T → Store T
  | [], k, e => [(k, e)]
  | (k', e') :: rest, k, e =>
      if k' = k then (k', e) :: rest else (k', e') :: mapSet rest k e

/-- `store.delete(key)`: removes the binding for `key` and returns
whether a removal occurred, paired with the resulting store. -/
def mapDelete {T : Type} : Store T → String → Bool × Store T
  | [], _ => (false, [])
  | (k', e') :: rest, k =>
      if k' = k then (true, rest)
      else
        let r := mapDelete rest k
        (r.1, (k', e') :: r.2)

/-- The mutable state captured by `createCache`'s closures: the store
plus the two configuration values fixed at construction. -/
structure CacheState (T : Type) where
  ttl : Nat
  maxSize : Int
  store : Store T
  deriving Repr, DecidableEq

/-- `createCache(options)`: fresh empty store with the given options. -/
def createCache (T : Type) (options : CacheOptions) : CacheState T :=
  { ttl := options.ttl, maxSize := options.maxSize, store := [] }

/-- `evictExpired()` at instant `now`: delete every entry with
`entry.expiresAt < now` (strict comparison), keeping the rest in order. -/
def evictExpired {T : Type} (now : Nat) (s : Store T) : Store T :=
  s.filter (fun p => !decide (p.2.expiresAt < now))

/-- `evictOldest()`: if `store.size >= maxSize`, delete the first
(insertion-oldest) key; on an empty store `firstKey` is `undefined` and
nothing is deleted (`[].tail = []`). -/
def evictOldest {T : Type} (maxSize : Int) (s : Store T) : Store T :=
  if maxSize ≤ (s.length : Int) then s.tail else s

/-- `get(key)` at instant `now`: sweep expired entries, then look `key`
up; a still-expired hit is deleted defensively and reported absent. -/
def get {T : Type} (c : CacheState T) (k : String) (now : Nat) :
    Option T × CacheState T :=
  let s1 := evictExpired now c.store
  match mapGet s1 k with
  | none => (none, { c with store := s1 })
  | some e =>
      if e.expiresAt < now then (none, { c with store := (mapDelete s1 k).2 })
      else (some e.value, { c with store := s1 })

/-- `set(key, value)` at instant `now`: sweep expired entries, run the
capacity eviction, then insert/replace the entry with
`expiresAt = now + ttl`. -/
def set {T : Type} (c : CacheState T) (k : String) (v : T) (now : Nat) :
    CacheState T :=
  let s1 := evictExpired now c.store
  let s2 := evictOldest c.maxSize s1
  { c with store := mapSet s2 k ⟨v, now + c.ttl⟩ }

/-- `has(key)` at instant `now`: the source builds a *fresh* cache with
the same options and queries that, leaving the instance's own store
untouched: `createCache(options).get(key) !== undefined`. -/
def has {T : Type} (c : CacheState T) (k : String) (now : Nat) :
    Bool × CacheState T :=
  ((get (createCache T ⟨c.ttl, c.maxSize⟩) k now).1.isSome, c)

/-- `delete(key)`: unconditional `store.delete(key)`. -/
def delete {T : Type} (c : CacheState T) (k : String) : Bool × CacheState T :=
  let r := mapDelete c.store k
  (r.1, { c with store := r.2 })

/-- `clear()`: `store.clear()`. -/
def clear {T : Type} (c : CacheState T) : CacheState T :=
  { c with store := [] }

/-- `size()` at instant `now`: sweep expired entries, then report the
store's size. -/
def size {T : Type} (c : CacheState T) (now : Nat) : Nat × CacheState T :=
  let s1 := evictExpired now c.store
  (s1.length, { c with store := s1 })

/-- One public operation of the cache interface, with the instant at
which it is called. -/
inductive Op (T : Type) where
  | get (k : String) (now : Nat)
  | set (k : String) (v : T) (now : Nat)
  | has (k : String) (now : Nat)
  | delete (k : String)
  | clear
  | size (now : Nat)

/-- The state transition of one operation (results discarded). -/
def applyOp {T : Type} (c : CacheState T) : Op T → CacheState T
  | .get k now => (get c k now).2
  | .set k v now => set c k v now
  | .has k now => (has c k now).2
  | .delete k => (delete c k).2
  | .clear => clear c
  | .size now => (size c now).2

/-- Run a sequence of operations from a starting state. -/
def run {T : Type} (c : CacheState T) : List (Op T) → CacheState T
  | [] => c
  | op :: ops => run (applyOp c op) ops

/-! ## Association-list lemmas (JavaScript `Map` semantics) -/

theorem mapGet_mapSet_self {T : Type} (s : Store T) (k : String) (e : CacheEntry T) :
    mapGet (mapSet s k e) k = some e := by
  induction s with
  | nil => simp [mapSet, mapGet]
  | cons p rest ih =>
      obtain ⟨k', e'⟩ := p
      by_cases h : k' = k
      · simp [mapSet, mapGet, h]
      · simp [mapSet, mapGet, h, ih]

theorem mapGet_filter_of_keep {T : Type} (q : String × CacheEntry T → Bool)
    (s : Store T) (k : String) (e : CacheEntry T)
    (hget : mapGet s k = some e) (hq : q (k, e) = true) :
    mapGet (s.filter q) k = some e := by
  induction s with
  | nil => simp [mapGet] at hget
  | cons p rest ih =>
      obtain ⟨k', e'⟩ := p
      by_cases h : k' = k
      · subst h
        have he : e' = e := by simpa [mapGet] using hget
        subst he
        simp [List.filter, hq, mapGet]
      · simp only [mapGet, if_neg h] at hget
        rcases hk : q (k', e') with _ | _
        · simp [List.filter, hk, ih hget]
        · simp [List.filter, hk, mapGet, h, ih hget]

theorem mapGet_eq_none_of_not_mem {T : Type} (s : Store T) (k : String)
    (h : k ∉ s.map Prod.fst) : mapGet s k = none := by
  induction s with
  | nil => rfl
  | cons p rest ih =>
      obtain ⟨k', e'⟩ := p
      simp only [List.map_cons, List.mem_cons, not_or] at h
      have hne : ¬ k' = k := fun hc => h.1 hc.symm
      simp [mapGet, hne, ih h.2]

theorem mapHas_iff_mem {T : Type} (s : Store T) (k : String) :
    mapHas s k = true ↔ k ∈ s.map Prod.fst := by
  induction s with
  | nil => simp [mapHas, mapGet]
  | cons p rest ih =>
      obtain ⟨k', e'⟩ := p
      by_cases h : k' = k
      · simp [mapHas, mapGet, h]
      · have hne : ¬ k = k' := fun hc => h hc.symm
        have hstep : mapHas ((k', e') :: rest) k = mapHas rest k := by
          simp [mapHas, mapGet, h]
        rw [hstep, ih]
        simp [hne]

theorem mapGet_filter_of_drop {T : Type} (q : String × CacheEntry T → Bool)
    (s : Store T) (k : String) (e : CacheEntry T)
    (hnd : (s.map Prod.fst).Nodup)
    (hget : mapGet s k = some e) (hq : q (k, e) = false) :
    mapGet (s.filter q) k = none := by
  induction s with
  | nil => simp [mapGet] at hget
  | cons p rest ih =>
      obtain ⟨k', e'⟩ := p
      simp only [List.map_cons, List.nodup_cons] at hnd
      by_cases h : k' = k
      · subst h
        have he : e' = e := by simpa [mapGet] using hget
        subst he
        have hrest : mapGet (rest.filter q) k' = none :=
          mapGet_eq_none_of_not_mem _ _ fun hc =>
            hnd.1 (((List.filter_sublist rest).map Prod.fst).subset hc)
        simp [List.filter, hq, hrest]
      · simp only [mapGet, if_neg h] at hget
        rcases hk : q (k', e') with _ | _
        · simp [List.filter, hk, ih hnd.2 hget]
        · simp [List.filter, hk, mapGet, h, ih hnd.2 hget]

theorem mapSet_map_fst_of_mem {T : Type} (s : Store T) (k : String) (e : CacheEntry T)
    (h : k ∈ s.map Prod.fst) : (mapSet s k e).map Prod.fst = s.map Prod.fst := by
  induction s with
  | nil => simp at h
  | cons p rest ih =>
      obtain ⟨k', e'⟩ := p
      by_cases hk : k' = k
      · simp [mapSet, hk]
      · simp only [List.map_cons, List.mem_cons] at h
        rcases h with h | h
        · exact absurd h.symm hk
        · simp [mapSet, hk, ih h]

theorem mapSet_map_fst_of_not_mem {T : Type} (s : Store T) (k : String) (e : CacheEntry T)
    (h : k ∉ s.map Prod.fst) : (mapSet s k e).map Prod.fst = s.map Prod.fst ++ [k] := by
  induction s with
  | nil => simp [mapSet]
  | cons p rest ih =>
      obtain ⟨k', e'⟩ := p
      simp only [List.map_cons, List.mem_cons, not_or] at h
      have hne : ¬ k' = k := fun hc => h.1 hc.symm
      simp [mapSet, hne, ih h.2]

theorem nodup_mapSet {T : Type} (s : Store T) (k : String) (e : CacheEntry T)
    (h : (s.map Prod.fst).Nodup) : ((mapSet s k e).map Prod.fst).Nodup := by
  by_cases hm : k ∈ s.map Prod.fst
  · rw [mapSet_map_fst_of_mem s k e hm]; exact h
  · rw [mapSet_map_fst_of_not_mem s k e hm]
    refine List.Nodup.append h (List.nodup_singleton k) ?_
    intro a ha hb
    simp only [List.mem_singleton] at hb
    exact hm (hb ▸ ha)

theorem length_mapSet_le {T : Type} (s : Store T) (k : String) (e : CacheEntry T) :
    (mapSet s k e).length ≤ s.length + 1 := by
  induction s with
  | nil => simp [mapSet]
  | cons p rest ih =>
      obtain ⟨k', e'⟩ := p
      by_cases h : k' = k
      · simp [mapSet, h]
      · simp only [mapSet, if_neg h, List.length_cons]
        omega

theorem length_mapSet_of_mem {T : Type} (s : Store T) (k : String) (e : CacheEntry T)
    (h : k ∈ s.map Prod.fst) : (mapSet s k e).length = s.length := by
  have := congrArg List.length (mapSet_map_fst_of_mem s k e h)
  simpa using this

theorem mapDelete_fst {T : Type} (s : Store T) (k : String) :
    (mapDelete s k).1 = mapHas s k := by
  induction s with
  | nil => simp [mapDelete, mapHas, mapGet]
  | cons p rest ih =>
      obtain ⟨k', e'⟩ := p
      by_cases h : k' = k
      · simp [mapDelete, mapHas, mapGet, h]
      · simpa [mapDelete, if_neg h, mapHas, mapGet, h] using ih

theorem not_mem_mapDelete_of_nodup {T : Type} (s : Store T) (k : String)
    (hnd : (s.map Prod.fst).Nodup) : k ∉ ((mapDelete s k).2).map Prod.fst := by
  induction s with
  | nil => simp [mapDelete]
  | cons p rest ih =>
      obtain ⟨k', e'⟩ := p
      simp only [List.map_cons, List.nodup_cons] at hnd
      by_cases h : k' = k
      · subst h
        simpa [mapDelete] using hnd.1
      · have hne : ¬ k = k' := fun hc => h hc.symm
        simp [mapDelete, h, hne, ih hnd.2]

theorem length_mapDelete_le {T : Type} (s : Store T) (k : String) :
    ((mapDelete s k).2).length ≤ s.length := by
  induction s with
  | nil => simp [mapDelete]
  | cons p rest ih =>
      obtain ⟨k', e'⟩ := p
      by_cases h : k' = k
      · simp only [mapDelete, if_pos h, List.length_cons]
        omega
      · simp only [mapDelete, if_neg h, List.length_cons]
        omega

/-! ## Sweep, eviction and operation lemmas -/

theorem length_evictExpired_le {T : Type} (now : Nat) (s : Store T) :
    (evictExpired now s).length ≤ s.length :=
  List.length_filter_le _ _

theorem nodup_evictExpired {T : Type} (now : Nat) (s : Store T)
    (h : (s.map Prod.fst).Nodup) : ((evictExpired now s).map Prod.fst).Nodup :=
  h.sublist ((List.filter_sublist s).map Prod.fst)

theorem length_evictOldest {T : Type} (maxSize : Int) (s : Store T) :
    (evictOldest maxSize s).length =
      if maxSize ≤ (s.length : Int) then s.length - 1 else s.length := by
  unfold evictOldest
  split
  · simp [List.length_tail]
  · rfl

theorem evictOldest_of_lt {T : Type} (maxSize : Int) (s : Store T)
    (h : (s.length : Int) < maxSize) : evictOldest maxSize s = s := by
  unfold evictOldest
  rw [if_neg (not_le.mpr h)]

theorem nodup_evictOldest {T : Type} (maxSize : Int) (s : Store T)
    (h : (s.map Prod.fst).Nodup) : ((evictOldest maxSize s).map Prod.fst).Nodup := by
  unfold evictOldest
  split
  · exact h.sublist ((List.tail_sublist s).map Prod.fst)
  · exact h

theorem set_store_def {T : Type} (c : CacheState T) (k : String) (v : T) (now : Nat) :
    (set c k v now).store =
      mapSet (evictOldest c.maxSize (evictExpired now c.store)) k ⟨v, now + c.ttl⟩ := rfl

theorem get_def {T : Type} (c : CacheState T) (k : String) (now : Nat) :
    get c k now =
      match mapGet (evictExpired now c.store) k with
      | none => (none, { c with store := evictExpired now c.store })
      | some e =>
          if e.expiresAt < now then
            (none, { c with store := (mapDelete (evictExpired now c.store) k).2 })
          else (some e.value, { c with store := evictExpired now c.store }) := rfl

theorem get_of_none {T : Type} (c : CacheState T) (k : String) (now : Nat)
    (h : mapGet (evictExpired now c.store) k = none) :
    get c k now = (none, { c with store := evictExpired now c.store }) := by
  rw [get_def, h]

theorem get_of_live {T : Type} (c : CacheState T) (k : String) (now : Nat)
    (e : CacheEntry T) (h : mapGet (evictExpired now c.store) k = some e)
    (hl : ¬ e.expiresAt < now) :
    get c k now = (some e.value, { c with store := evictExpired now c.store }) := by
  rw [get_def, h]
  simp [hl]

theorem get_store_length_le {T : Type} (c : CacheState T) (k : String) (now : Nat) :
    ((get c k now).2).store.length ≤ c.store.length := by
  rw [get_def]
  cases h : mapGet (evictExpired now c.store) k with
  | none => simpa using length_evictExpired_le now c.store
  | some e =>
      by_cases he : e.expiresAt < now
      · simp only [if_pos he]
        exact le_trans (length_mapDelete_le _ _) (length_evictExpired_le _ _)
      · simp only [if_neg he]
        exact length_evictExpired_le _ _

theorem get_snd_ttl {T : Type} (c : CacheState T) (k : String) (now : Nat) :
    ((get c k now).2).ttl = c.ttl := by
  rw [get_def]
  cases h : mapGet (evictExpired now c.store) k with
  | none => rfl
  | some e => by_cases he : e.expiresAt < now <;> simp [he]

theorem get_snd_maxSize {T : Type} (c : CacheState T) (k : String) (now : Nat) :
    ((get c k now).2).maxSize = c.maxSize := by
  rw [get_def]
  cases h : mapGet (evictExpired now c.store) k with
  | none => rfl
  | some e => by_cases he : e.expiresAt < now <;> simp [he]

theorem applyOp_ttl {T : Type} (c : CacheState T) (op : Op T) :
    (applyOp c op).ttl = c.ttl := by
  cases op with
  | get k now => exact get_snd_ttl c k now
  | set k v now => rfl
  | has k now => rfl
  | delete k => rfl
  | clear => rfl
  | size now => rfl

theorem applyOp_maxSize {T : Type} (c : CacheState T) (op : Op T) :
    (applyOp c op).maxSize = c.maxSize := by
  cases op with
  | get k now => exact get_snd_maxSize c k now
  | set k v now => rfl
  | has k now => rfl
  | delete k => rfl
  | clear => rfl
  | size now => rfl

theorem run_ttl {T : Type} (c : CacheState T) (ops : List (Op T)) :
    (run c ops).ttl = c.ttl := by
  induction ops generalizing c with
  | nil => rfl
  | cons op ops ih => rw [run, ih, applyOp_ttl]

theorem run_maxSize {T : Type} (c : CacheState T) (ops : List (Op T)) :
    (run c ops).maxSize = c.maxSize := by
  induction ops generalizing c with
  | nil => rfl
  | cons op ops ih => rw [run, ih, applyOp_maxSize]

/-- The capacity invariant maintained by every operation: the raw store
never holds more than `max maxSize 1` entries (the `1` accounts for the
degenerate `maxSize ≤ 0` configuration, where a `set` still inserts its
own entry after evicting). -/
def sizeBounded {T : Type} (c : CacheState T) : Prop :=
  (c.store.length : Int) ≤ max c.maxSize 1

theorem set_sizeBounded {T : Type} (c : CacheState T) (k : String) (v : T) (now : Nat)
    (h : sizeBounded c) : sizeBounded (set c k v now) := by
  unfold sizeBounded at h ⊢
  rw [set_store_def, show (set c k v now).maxSize = c.maxSize from rfl]
  have h1 := length_evictExpired_le now c.store
  have h2 := length_evictOldest c.maxSize (evictExpired now c.store)
  have h3 := length_mapSet_le (evictOldest c.maxSize (evictExpired now c.store)) k
    ⟨v, now + c.ttl⟩
  split at h2 <;> omega

theorem set_store_le_maxSize {T : Type} (c : CacheState T) (k : String) (v : T) (now : Nat)
    (hpos : 1 ≤ c.maxSize) (h : sizeBounded c) :
    ((set c k v now).store.length : Int) ≤ c.maxSize := by
  unfold sizeBounded at h
  rw [set_store_def]
  have h1 := length_evictExpired_le now c.store
  have h2 := length_evictOldest c.maxSize (evictExpired now c.store)
  have h3 := length_mapSet_le (evictOldest c.maxSize (evictExpired now c.store)) k
    ⟨v, now + c.ttl⟩
  split at h2 <;> omega

theorem applyOp_sizeBounded {T : Type} (c : CacheState T) (op : Op T)
    (h : sizeBounded c) : sizeBounded (applyOp c op) := by
  have hM := applyOp_maxSize c op
  cases op with
  | get k now =>
      have := get_store_length_le c k now
      unfold sizeBounded at h ⊢
      rw [show (applyOp c (Op.get k now)) = (get c k now).2 from rfl] at hM ⊢
      omega
  | set k v now => exact set_sizeBounded c k v now h
  | has k now => exact h
  | delete k =>
      have := length_mapDelete_le c.store k
      unfold sizeBounded at h ⊢
      simp only [applyOp, delete] at hM ⊢
      omega
  | clear =>
      unfold sizeBounded at h ⊢
      simp only [applyOp, clear, List.length_nil, Nat.cast_zero] at hM ⊢
      omega
  | size now =>
      have := length_evictExpired_le now c.store
      unfold sizeBounded at h ⊢
      simp only [applyOp, size] at hM ⊢
      omega

theorem run_sizeBounded {T : Type} (c : CacheState T) (ops : List (Op T))
    (h : sizeBounded c) : sizeBounded (run c ops) := by
  induction ops generalizing c with
  | nil => exact h
  | cons op ops ih => exact ih _ (applyOp_sizeBounded c op h)

theorem createCache_sizeBounded {T : Type} (opts : CacheOptions) :
    sizeBounded (createCache T opts) := by
  unfold sizeBounded createCache
  simp only [List.length_nil, Nat.cast_zero]
  omega

theorem mapGet_evictExpired_of_live {T : Type} (now : Nat) (s : Store T) (k : String)
    (e : CacheEntry T) (h1 : mapGet s k = some e) (h2 : ¬ e.expiresAt < now) :
    mapGet (evictExpired now s) k = some e := by
  unfold evictExpired
  exact mapGet_filter_of_keep _ s k e h1 (by simp [h2])

theorem mapGet_evictExpired_of_dead {T : Type} (now : Nat) (s : Store T) (k : String)
    (e : CacheEntry T) (hnd : (s.map Prod.fst).Nodup)
    (h1 : mapGet s k = some e) (h2 : e.expiresAt < now) :
    mapGet (evictExpired now s) k = none := by
  unfold evictExpired
  exact mapGet_filter_of_drop _ s k e hnd h1 (by simp [h2])

theorem tail_eq_nil_of_length_le_one {α : Type} (s : List α) (h : s.length ≤ 1) :
    s.tail = [] := by
  cases s with
  | nil => rfl
  | cons a t =>
      cases t with
      | nil => rfl
      | cons b u => simp at h

/-! ## Claim theorems -/

/-- C1: for every key and value, if the cache was created with `ttl > 0`
and the `set` did not trigger an eviction that removed this key, then
immediately after `set(key, value)` (read at the same instant, before
the ttl can elapse), `get(key)` returns `value`.  (The eviction proviso
is vacuous: `set` inserts the key after its eviction steps, so the key
is always present afterwards; the theorem needs no such hypothesis.) -/
theorem get_immediately_after_set {T : Type} (c : CacheState T) (k : String) (v : T)
    (now : Nat) (h : 0 < c.ttl) :
    (get (set c k v now) k now).1 = some v := by
  have hget : mapGet (set c k v now).store k = some ⟨v, now + c.ttl⟩ := by
    rw [set_store_def]
    exact mapGet_mapSet_self _ _ _
  have hkeep : mapGet (evictExpired now (set c k v now).store) k =
      some ⟨v, now + c.ttl⟩ :=
    mapGet_evictExpired_of_live now _ k _ hget (by show ¬ now + c.ttl < now; omega)
  rw [get_of_live (set c k v now) k now ⟨v, now + c.ttl⟩ hkeep
    (by show ¬ now + c.ttl < now; omega)]

/-- C1 witness: at `ttl = 1000`, `maxSize = 10`, setting then reading
`"a"` at instant 0 yields the stored value. -/
theorem get_immediately_after_set_witness :
    0 < (createCache Nat ⟨1000, 10⟩).ttl ∧
    (get (set (createCache Nat ⟨1000, 10⟩) "a" 1 0) "a" 0).1 = some 1 :=
  ⟨by decide, get_immediately_after_set (createCache Nat ⟨1000, 10⟩) "a" 1 0 (by decide)⟩

/-- C4: with `maxSize = 2` and a large ttl, `set("a",1)`, `set("b",2)`,
`set("c",3)` in sequence gives `get("a") = absent`, `get("b") = 2`,
`get("c") = 3`: the insertion-oldest key is evicted at capacity. -/
theorem eviction_order_test :
    (get (set (set (set (createCache Nat ⟨1000, 2⟩) "a" 1 0) "b" 2 0) "c" 3 0)
        "a" 0).1 = none ∧
    (get ((get (set (set (set (createCache Nat ⟨1000, 2⟩) "a" 1 0) "b" 2 0) "c" 3 0)
        "a" 0).2) "b" 0).1 = some 2 ∧
    (get ((get ((get (set (set (set (createCache Nat ⟨1000, 2⟩) "a" 1 0) "b" 2 0)
        "c" 3 0) "a" 0).2) "b" 0).2) "c" 0).1 = some 3 := by
  decide

/-- C5: the claim states `has(key)` is equivalent to `get(key)` being
non-absent on the same instance.  The code instead builds a fresh cache
(`createCache(options).get(key)`), so `has` always returns `false`; at
the failing input (set `"a"` then query it at the same instant with
`ttl = 1000`) `has` answers `false` while `get` returns the value. -/
theorem has_bug_at_failing_input :
    (∀ (T : Type) (c : CacheState T) (k : String) (now : Nat),
        (has c k now).1 = false) ∧
    (has (set (createCache Nat ⟨1000, 10⟩) "a" 1 0) "a" 0).1 = false ∧
    (get (set (createCache Nat ⟨1000, 10⟩) "a" 1 0) "a" 0).1 = some 1 :=
  ⟨fun _ _ _ _ => rfl, rfl, by decide⟩

/-- C10: `has(key)` leaves the instance's store completely unchanged:
it queries a fresh cache and never touches the captured store, so the
state it returns is exactly the state it was called on. -/
theorem has_leaves_store_unchanged {T : Type} (c : CacheState T) (k : String)
    (now : Nat) : (has c k now).2 = c := rfl

/-- C2 counterexample: with `ttl = 5`, set `"a"` at instant 0 and read
at instant 5 — the read instant equals set-time + ttl ("at least
set-time + ttl"), yet `get` returns the value, because the expiry
comparison `expiresAt < now` (`5 < 5`) is strict and fails. -/
theorem get_at_exact_expiry_returns_value :
    0 + (createCache Nat ⟨5, 10⟩).ttl ≤ 5 ∧
    (get (set (createCache Nat ⟨5, 10⟩) "a" 1 0) "a" 5).1 = some 1 := by
  decide

/-- C2 (amended): once *strictly more than* ttl milliseconds have
elapsed since the most recent `set(key, ...)` — the read instant is
strictly greater than set-time + ttl — `get(key)` returns absent; in
particular with `ttl = 0` an entry is expired for every read at a
strictly later instant than its insertion. -/
theorem get_absent_after_ttl_strictly_elapsed {T : Type} (c : CacheState T)
    (k : String) (v : T) (now now' : Nat)
    (hnd : (c.store.map Prod.fst).Nodup) (h : now + c.ttl < now') :
    (get (set c k v now) k now').1 = none := by
  have hget : mapGet (set c k v now).store k = some ⟨v, now + c.ttl⟩ := by
    rw [set_store_def]
    exact mapGet_mapSet_self _ _ _
  have hnd' : ((set c k v now).store.map Prod.fst).Nodup := by
    rw [set_store_def]
    exact nodup_mapSet _ _ _ (nodup_evictOldest _ _ (nodup_evictExpired _ _ hnd))
  have hnone : mapGet (evictExpired now' (set c k v now).store) k = none :=
    mapGet_evictExpired_of_dead now' _ k _ hnd' hget h
  rw [get_of_none _ _ _ hnone]

/-- C2 witness: with `ttl = 0`, set `"a"` at instant 3 and read at the
strictly later instant 4: absent. -/
theorem get_absent_after_ttl_strictly_elapsed_witness :
    ((createCache Nat ⟨0, 10⟩).store.map Prod.fst).Nodup ∧
    3 + (createCache Nat ⟨0, 10⟩).ttl < 4 ∧
    (get (set (createCache Nat ⟨0, 10⟩) "a" 1 3) "a" 4).1 = none :=
  ⟨by decide, by decide,
    get_absent_after_ttl_strictly_elapsed (createCache Nat ⟨0, 10⟩) "a" 1 3 4
      (by decide) (by decide)⟩

/-- C6 counterexample: `maxSize = 3`, large ttl.  After `set("a",1)`,
`set("b",2)`, re-`set("a",3)`, `set("c",4)` the key order is still
`["a","b","c"]` — the re-`set` of `"a"` (a JavaScript `Map.set` on an
existing key) did *not* move `"a"` to newest — so the next `set("d",5)`
at capacity evicts `"a"`, not `"b"`, even though `"b"`'s insertion
predates `"a"`'s re-`set`: `"a"` was not the last eviction candidate
among the keys present after its re-`set`. -/
theorem set_existing_key_order_counterexample :
    ((set (set (set (set (createCache Nat ⟨1000, 3⟩) "a" 1 0) "b" 2 0) "a" 3 0)
        "c" 4 0).store.map Prod.fst = ["a", "b", "c"]) ∧
    (get (set (set (set (set (set (createCache Nat ⟨1000, 3⟩) "a" 1 0) "b" 2 0)
        "a" 3 0) "c" 4 0) "d" 5 0) "a" 0).1 = none ∧
    (get (set (set (set (set (set (createCache Nat ⟨1000, 3⟩) "a" 1 0) "b" 2 0)
        "a" 3 0) "c" 4 0) "d" 5 0) "b" 0).1 = some 2 := by
  decide

/-- C6 (amended): `set(k, v)` on a key already present (after the
sweep) does *not* reset `k`'s eviction-order position: when the store
is below capacity after the sweep (so the capacity eviction does
nothing), the key sequence of the store is exactly the post-sweep key
sequence — `k` keeps its old position; `k` is re-inserted at the end
only if the `set`'s own eviction step removed it first. -/
theorem set_existing_key_preserves_order {T : Type} (c : CacheState T) (k : String)
    (v : T) (now : Nat)
    (hk : mapHas (evictExpired now c.store) k = true)
    (hlt : ((evictExpired now c.store).length : Int) < c.maxSize) :
    (set c k v now).store.map Prod.fst = (evictExpired now c.store).map Prod.fst := by
  rw [set_store_def, evictOldest_of_lt _ _ hlt]
  exact mapSet_map_fst_of_mem _ _ _ ((mapHas_iff_mem _ _).mp hk)

/-- C6 witness: re-setting `"a"` in a two-entry store below capacity
keeps the key order `["a", "b"]`. -/
theorem set_existing_key_preserves_order_witness :
    mapHas (evictExpired 0 (set (set (createCache Nat ⟨1000, 5⟩) "a" 1 0) "b" 2 0).store)
        "a" = true ∧
    ((evictExpired 0 (set (set (createCache Nat ⟨1000, 5⟩) "a" 1 0) "b" 2 0).store).length
        : Int) < 5 ∧
    (set (set (set (createCache Nat ⟨1000, 5⟩) "a" 1 0) "b" 2 0) "a" 7 0).store.map
        Prod.fst = ["a", "b"] :=
  ⟨by decide, by decide,
    by
      have h := set_existing_key_preserves_order
        (set (set (createCache Nat ⟨1000, 5⟩) "a" 1 0) "b" 2 0) "a" 7 0
        (by decide) (by decide)
      rw [h]
      decide⟩

/-- C7 counterexample: with `maxSize = 0` (≤ 0) and `ttl = 1000`,
`set("a", 1)` retains its entry: the immediately following
`get("a")` observes the value, so the cache does not hold zero
steady-state entries. -/
theorem maxSize_zero_retains_entry :
    (createCache Nat ⟨1000, 0⟩).maxSize ≤ 0 ∧
    (get (set (createCache Nat ⟨1000, 0⟩) "a" 1 0) "a" 0).1 = some 1 := by
  decide

/-- C7 (amended): with `maxSize ≤ 0` the cache holds at most *one*
steady-state entry, not zero: every `set` first evicts the store down
to empty (the capacity check `size >= maxSize` always fires) and then
retains the freshly inserted entry, so after any `set(k, v)` completes
the store is exactly the singleton for `k`. -/
theorem set_singleton_of_maxSize_nonpos {T : Type} (opts : CacheOptions)
    (h : opts.maxSize ≤ 0) (ops : List (Op T)) (k : String) (v : T) (now : Nat) :
    (set (run (createCache T opts) ops) k v now).store =
      [(k, ⟨v, now + opts.ttl⟩)] := by
  have hM : (run (createCache T opts) ops).maxSize = opts.maxSize := by
    rw [run_maxSize]
    rfl
  have hT : (run (createCache T opts) ops).ttl = opts.ttl := by
    rw [run_ttl]
    rfl
  have hb : sizeBounded (run (createCache T opts) ops) :=
    run_sizeBounded _ _ (createCache_sizeBounded opts)
  unfold sizeBounded at hb
  have hlen : (run (createCache T opts) ops).store.length ≤ 1 := by
    rw [hM] at hb
    omega
  have hlen1 : (evictExpired now (run (createCache T opts) ops).store).length ≤ 1 :=
    le_trans (length_evictExpired_le _ _) hlen
  have hev : evictOldest (run (createCache T opts) ops).maxSize
      (evictExpired now (run (createCache T opts) ops).store) = [] := by
    unfold evictOldest
    rw [if_pos (by rw [hM]; omega)]
    exact tail_eq_nil_of_length_le_one _ hlen1
  rw [set_store_def, hev, hT]
  rfl

/-- C7 witness: `maxSize = 0`, a prior `set "x"`, then `set "a" 2` at
instant 3 with `ttl = 7`: the store is exactly the singleton for
`"a"`. -/
theorem set_singleton_of_maxSize_nonpos_witness :
    (⟨7, 0⟩ : CacheOptions).maxSize ≤ 0 ∧
    (set (run (createCache Nat ⟨7, 0⟩) [Op.set "x" 5 0]) "a" 2 3).store =
      [("a", ⟨2, 3 + 7⟩)] :=
  ⟨by decide,
    set_singleton_of_maxSize_nonpos ⟨7, 0⟩ (by decide) [Op.set "x" 5 0] "a" 2 3⟩

/-- C8: `delete(key)` returns `true` exactly when an entry for `key`
was in the store before the call — including an entry already logically
expired but not yet swept (no expiry check is made) — and `false`
otherwise; after `delete(key)`, `get(key)` returns absent (at any read
instant). -/
theorem delete_spec {T : Type} (c : CacheState T) (k : String) (now : Nat)
    (hnd : (c.store.map Prod.fst).Nodup) :
    ((delete c k).1 = true ↔ k ∈ c.store.map Prod.fst) ∧
    (get (delete c k).2 k now).1 = none := by
  constructor
  · rw [show (delete c k).1 = (mapDelete c.store k).1 from rfl, mapDelete_fst]
    exact mapHas_iff_mem _ _
  · have hmem : k ∉ ((mapDelete c.store k).2).map Prod.fst :=
      not_mem_mapDelete_of_nodup c.store k hnd
    have hnone : mapGet (evictExpired now (mapDelete c.store k).2) k = none :=
      mapGet_eq_none_of_not_mem _ _ fun hc =>
        hmem (((List.filter_sublist _).map Prod.fst).subset hc)
    rw [get_of_none (delete c k).2 k now hnone]

/-- C8 witness: after `set "a"` (with `ttl = 0`, so the entry is
logically expired at read instant 1), `delete "a"` reports a removal
and a subsequent `get "a"` is absent. -/
theorem delete_spec_witness :
    ((set (createCache Nat ⟨0, 10⟩) "a" 1 0).store.map Prod.fst).Nodup ∧
    ((delete (set (createCache Nat ⟨0, 10⟩) "a" 1 0) "a").1 = true ↔
      "a" ∈ (set (createCache Nat ⟨0, 10⟩) "a" 1 0).store.map Prod.fst) ∧
    (get (delete (set (createCache Nat ⟨0, 10⟩) "a" 1 0) "a").2 "a" 1).1 = none :=
  ⟨by decide, delete_spec (set (createCache Nat ⟨0, 10⟩) "a" 1 0) "a" 1 (by decide)⟩

/-- C9: for a cache whose store contains `k` and holds exactly
`maxSize` entries after the expiry sweep (post-sweep store
`(k0, e0) :: rest` with `k0 ≠ k`), `set(k, v)` still evicts the
insertion-oldest entry `k0` — a key other than the one being re-set —
and the store ends at `maxSize - 1` entries, with `k`'s entry
replaced in place. -/
theorem set_at_capacity_evicts_oldest {T : Type} (c : CacheState T) (k : String)
    (v : T) (now : Nat) (k0 : String) (e0 : CacheEntry T) (rest : Store T)
    (hnd : (c.store.map Prod.fst).Nodup)
    (hs : evictExpired now c.store = (k0, e0) :: rest)
    (hcap : ((((k0, e0) :: rest).length : Nat) : Int) = c.maxSize)
    (hk : mapHas ((k0, e0) :: rest) k = true)
    (hne : k0 ≠ k) :
    (((set c k v now).store.length : Nat) : Int) = c.maxSize - 1 ∧
    mapHas (set c k v now).store k0 = false ∧
    mapGet (set c k v now).store k = some ⟨v, now + c.ttl⟩ := by
  have hkrest : mapHas rest k = true := by
    simpa [mapHas, mapGet, hne] using hk
  have hmemrest : k ∈ rest.map Prod.fst := (mapHas_iff_mem _ _).mp hkrest
  have hev : evictOldest c.maxSize (evictExpired now c.store) = rest := by
    unfold evictOldest
    rw [hs, if_pos (le_of_eq hcap.symm)]
    rfl
  have hstore : (set c k v now).store = mapSet rest k ⟨v, now + c.ttl⟩ := by
    rw [set_store_def, hev]
  have hnd1 : (((k0, e0) :: rest).map Prod.fst).Nodup := by
    rw [← hs]
    exact nodup_evictExpired _ _ hnd
  have hk0 : k0 ∉ rest.map Prod.fst := by
    simp only [List.map_cons, List.nodup_cons] at hnd1
    exact hnd1.1
  refine ⟨?_, ?_, ?_⟩
  · rw [hstore, length_mapSet_of_mem rest k ⟨v, now + c.ttl⟩ hmemrest]
    simp only [List.length_cons] at hcap
    omega
  · have hkeys : (mapSet rest k ⟨v, now + c.ttl⟩).map Prod.fst = rest.map Prod.fst :=
      mapSet_map_fst_of_mem _ _ _ hmemrest
    have hget0 : mapGet (mapSet rest k ⟨v, now + c.ttl⟩) k0 = none :=
      mapGet_eq_none_of_not_mem _ _ (by rw [hkeys]; exact hk0)
    rw [hstore]
    simp [mapHas, hget0]
  · rw [hstore]
    exact mapGet_mapSet_self _ _ _

/-- C9 witness: store `["a", "b"]` at capacity `maxSize = 2`,
re-setting `"b"` evicts `"a"` and ends at one entry. -/
theorem set_at_capacity_evicts_oldest_witness :
    (((set (set (createCache Nat ⟨1000, 2⟩) "a" 1 0) "b" 2 0).store.map
        Prod.fst).Nodup ∧
      evictExpired 0 (set (set (createCache Nat ⟨1000, 2⟩) "a" 1 0) "b" 2 0).store =
        [("a", ⟨1, 1000⟩), ("b", ⟨2, 1000⟩)] ∧
      (([("a", (⟨1, 1000⟩ : CacheEntry Nat)), ("b", ⟨2, 1000⟩)].length : Nat) : Int) =
        (set (set (createCache Nat ⟨1000, 2⟩) "a" 1 0) "b" 2 0).maxSize ∧
      mapHas [("a", (⟨1, 1000⟩ : CacheEntry Nat)), ("b", ⟨2, 1000⟩)] "b" = true ∧
      "a" ≠ "b") ∧
    ((((set (set (set (createCache Nat ⟨1000, 2⟩) "a" 1 0) "b" 2 0) "b" 9 0).store.length
        : Nat) : Int) =
      (set (set (createCache Nat ⟨1000, 2⟩) "a" 1 0) "b" 2 0).maxSize - 1 ∧
      mapHas (set (set (set (createCache Nat ⟨1000, 2⟩) "a" 1 0) "b" 2 0) "b" 9 0).store
        "a" = false ∧
      mapGet (set (set (set (createCache Nat ⟨1000, 2⟩) "a" 1 0) "b" 2 0) "b" 9 0).store
        "b" = some ⟨9, 0 + (set (set (createCache Nat ⟨1000, 2⟩) "a" 1 0) "b" 2 0).ttl⟩) :=
  ⟨⟨by decide, by decide, by decide, by decide, by decide⟩,
    set_at_capacity_evicts_oldest (set (set (createCache Nat ⟨1000, 2⟩) "a" 1 0) "b" 2 0)
      "b" 9 0 "a" ⟨1, 1000⟩ [("b", ⟨2, 1000⟩)] (by decide) (by decide) (by decide)
      (by decide) (by decide)⟩

/-- C3: for every cache created with `maxSize > 0` and every sequence
of operations, immediately after any `set` call returns the number of
entries in the store — and hence the value reported by `size()` — does
not exceed `maxSize`. -/
theorem store_le_maxSize_after_set {T : Type} (opts : CacheOptions)
    (h : 0 < opts.maxSize) (ops : List (Op T)) (k : String) (v : T) (now now' : Nat) :
    (((set (run (createCache T opts) ops) k v now).store.length : Nat) : Int) ≤
        opts.maxSize ∧
    (((size (set (run (createCache T opts) ops) k v now) now').1 : Nat) : Int) ≤
        opts.maxSize := by
  have hM : (run (createCache T opts) ops).maxSize = opts.maxSize := by
    rw [run_maxSize]
    rfl
  have hb : sizeBounded (run (createCache T opts) ops) :=
    run_sizeBounded _ _ (createCache_sizeBounded opts)
  have h1 : (((set (run (createCache T opts) ops) k v now).store.length : Nat) : Int) ≤
      opts.maxSize := by
    rw [← hM]
    exact set_store_le_maxSize _ k v now (by rw [hM]; omega) hb
  refine ⟨h1, ?_⟩
  have h2 : (size (set (run (createCache T opts) ops) k v now) now').1 ≤
      (set (run (createCache T opts) ops) k v now).store.length := by
    rw [show (size (set (run (createCache T opts) ops) k v now) now').1 =
        (evictExpired now' (set (run (createCache T opts) ops) k v now).store).length
      from rfl]
    exact length_evictExpired_le _ _
  omega

/-- C3 witness: `maxSize = 2`, two prior sets, a third `set` keeps both
the raw store length and the reported size at most 2. -/
theorem store_le_maxSize_after_set_witness :
    (0 : Int) < (⟨1000, 2⟩ : CacheOptions).maxSize ∧
    ((((set (run (createCache Nat ⟨1000, 2⟩) [Op.set "a" 1 0, Op.set "b" 2 0]) "c" 3 0).store.length
        : Nat) : Int) ≤ (⟨1000, 2⟩ : CacheOptions).maxSize ∧
      (((size (set (run (createCache Nat ⟨1000, 2⟩) [Op.set "a" 1 0, Op.set "b" 2 0]) "c" 3 0)
        0).1 : Nat) : Int) ≤ (⟨1000, 2⟩ : CacheOptions).maxSize) :=
  ⟨by decide,
    store_le_maxSize_after_set ⟨1000, 2⟩ (by decide) [Op.set "a" 1 0, Op.set "b" 2 0]
      "c" 3 0 0⟩

end TTLCache
